import Mathlib

/-
Verification of the IPA MPC core against its natural-language specification.

The developments below shallowly embed the Rust sources:
  * `src/helpers/buffers/send.rs`        — the per-channel send buffer (`SendBuffer::push`)
  * `src/protocol/basics/reshare.rs`     — the semi-honest and malicious reshare protocols
  * `ipa-core/src/query/runner/oprf_ipa.rs` — the per-user-cap dispatch of `OprfIpaQuery::execute`
  * `src/protocol/sort/generate_permutation_opt.rs` — the radix-sort driver
Machine integers are modelled as `Nat` with explicit range checks where the code
converts to `u32`; Rust panics (`assert!`, `unwrap`, `panic!`) are modelled as
`Option`/dedicated outcome constructors; fallible operations return `Except`.
-/

namespace IPA

/-- Helper role: one of the three MPC parties, `src/helpers` `Role`. -/
inductive Role
  | H1
  | H2
  | H3
deriving DecidableEq, Repr

/-- Ring direction, `src/helpers` `Direction`. -/
inductive Direction
  | Left
  | Right
deriving DecidableEq, Repr

/-- Ring neighbours: `Role::peer`. `H1.peer Left = H3`, `H1.peer Right = H2`, cyclically. -/
def Role.peer : Role → Direction → Role
  | .H1, .Left => .H3
  | .H1, .Right => .H2
  | .H2, .Left => .H1
  | .H2, .Right => .H3
  | .H3, .Left => .H2
  | .H3, .Right => .H1

/-- Hierarchical step path naming a sub-protocol channel; labels are opaque, modelled as `Nat`. -/
abbrev Step := List Nat

/-- Channel identifier `(peer_role, step_path)` from `src/helpers/network.rs`. -/
structure ChannelId where
  role : Role
  step : Step
deriving DecidableEq, Repr

/-- Fixed element size of a send-buffer slot (`MESSAGE_PAYLOAD_SIZE_BYTES`, 8 bytes). -/
def MESSAGE_PAYLOAD_SIZE_BYTES : Nat := 8

/-- Message pushed into a send buffer: a record id and a byte payload
(`MessageEnvelope` in `src/helpers/network.rs`); bytes are modelled as `Nat`. -/
structure MessageEnvelope where
  record_id : Nat
  payload : List Nat
deriving DecidableEq, Repr

/-- Modelled from the spec: `FixedSizeByteVec` (`src/helpers/buffers/fsv.rs` is not under
`src/`; only its caller `send.rs` is). Spec §4.2: a fixed-size-element buffer of
`batch_count * items_in_batch` slots that accepts out-of-order inserts inside the window,
rejects writes to an occupied slot, and flushes the head batch when contiguous, advancing
the drained-element count. -/
structure FixedSizeByteVec where
  batch_count : Nat
  items_in_batch : Nat
  drained : Nat
  slots : List (Option (List Nat))
deriving DecidableEq, Repr

/-- `FixedSizeByteVec::new(batch_count, items_in_batch)`: empty window, nothing drained. -/
def FixedSizeByteVec.new (batch_count items_in_batch : Nat) : FixedSizeByteVec :=
  ⟨batch_count, items_in_batch, 0, List.replicate (batch_count * items_in_batch) none⟩

/-- `FixedSizeByteVec::capacity()`: total slot count of the window. -/
def FixedSizeByteVec.capacity (buf : FixedSizeByteVec) : Nat :=
  buf.batch_count * buf.items_in_batch

/-- `FixedSizeByteVec::elements_drained()`: number of elements already emitted to the network. -/
def FixedSizeByteVec.elements_drained (buf : FixedSizeByteVec) : Nat :=
  buf.drained

/-- `FixedSizeByteVec::insert(index, payload)`: returns the previous value and leaves the
buffer unchanged when the slot is occupied, otherwise writes the slot. -/
def FixedSizeByteVec.insert (buf : FixedSizeByteVec) (index : Nat) (v : List Nat) :
    Option (List Nat) × FixedSizeByteVec :=
  match buf.slots[index]? with
  | some (some prev) => (some prev, buf)
  | _ => (none, { buf with slots := buf.slots.set index (some v) })

/-- `FixedSizeByteVec::take()`: when the head batch of `items_in_batch` slots is fully
written, emit it as one serialized block and advance the window. -/
def FixedSizeByteVec.take (buf : FixedSizeByteVec) : Option (List Nat) × FixedSizeByteVec :=
  let batch := buf.slots.take buf.items_in_batch
  if buf.items_in_batch ≤ buf.slots.length ∧ batch.all fun o => o.isSome then
    (some (batch.flatMap fun o => o.getD []),
      { buf with
          drained := buf.drained + buf.items_in_batch,
          slots := buf.slots.drop buf.items_in_batch ++ List.replicate buf.items_in_batch none })
  else
    (none, buf)

/-- Errors returned by `SendBuffer::push` (`PushError` in `src/helpers/buffers/send.rs`).
`OutOfRange` carries the accepted range `[accepted_lo, accepted_hi)`. -/
inductive PushError
  | OutOfRange (channel_id : ChannelId) (record_id : Nat) (accepted_lo accepted_hi : Nat)
  | Duplicate (channel_id : ChannelId) (record_id : Nat) (previous_value : List Nat)
deriving DecidableEq, Repr

/-- Bool test for the `OutOfRange` constructor of `PushError`. -/
def PushError.isOutOfRange : PushError → Bool
  | .OutOfRange _ _ _ _ => true
  | .Duplicate _ _ _ => false

/-- The send buffer multiplexer (`SendBuffer` in `src/helpers/buffers/send.rs`): a per-channel
map of fixed-size byte windows; absent channels are created on first push. -/
structure SendBuffer where
  items_in_batch : Nat
  batch_count : Nat
  inner : ChannelId → Option FixedSizeByteVec

/-- `SendBuffer::new(config)`: no channels yet. -/
def SendBuffer.new (items_in_batch batch_count : Nat) : SendBuffer :=
  ⟨items_in_batch, batch_count, fun _ => none⟩

/-- Channel lookup with on-demand creation (`entry(channel_id).or_insert_with(...)`). -/
def SendBuffer.getBuf (sb : SendBuffer) (c : ChannelId) : FixedSizeByteVec :=
  (sb.inner c).getD (FixedSizeByteVec.new sb.batch_count sb.items_in_batch)

/-- Store a channel's window back into the map. -/
def SendBuffer.setBuf (sb : SendBuffer) (c : ChannelId) (buf : FixedSizeByteVec) : SendBuffer :=
  ⟨sb.items_in_batch, sb.batch_count, fun x => if x = c then some buf else sb.inner x⟩

/-- Zero-padding of a message payload to the fixed element size. -/
def padPayload (p : List Nat) : List Nat :=
  p ++ List.replicate (MESSAGE_PAYLOAD_SIZE_BYTES - p.length) 0

/-- Base of the accepted window of a channel: elements already drained (0 for a fresh channel). -/
def SendBuffer.channelBase (sb : SendBuffer) (c : ChannelId) : Nat :=
  (sb.getBuf c).elements_drained

/-- Capacity of the accepted window of a channel. -/
def SendBuffer.channelCapacity (sb : SendBuffer) (c : ChannelId) : Nat :=
  (sb.getBuf c).capacity

/-- `SendBuffer::push(channel_id, msg)`, translated from `src/helpers/buffers/send.rs` lines
75–120. `none` models a Rust panic: the `assert!` on the payload size, or the
`u32::try_from(...).unwrap()` on the range bounds overflowing `u32`. On success it returns
the optional flushed batch and the updated buffer; range and duplicate violations return the
corresponding `PushError` with the channel entry still created/kept, as `entry().or_insert_with`
does in the source. -/
def SendBuffer.push (sb : SendBuffer) (channel_id : ChannelId) (msg : MessageEnvelope) :
    Option (Except PushError (Option (List Nat)) × SendBuffer) :=
  if MESSAGE_PAYLOAD_SIZE_BYTES < msg.payload.length then none
  else if 2 ^ 32 ≤ sb.channelBase channel_id + sb.channelCapacity channel_id then none
  else if msg.record_id < sb.channelBase channel_id ∨
      sb.channelBase channel_id + sb.channelCapacity channel_id ≤ msg.record_id then
    some (Except.error (PushError.OutOfRange channel_id msg.record_id
        (sb.channelBase channel_id)
        (sb.channelBase channel_id + sb.channelCapacity channel_id)),
      sb.setBuf channel_id (sb.getBuf channel_id))
  else
    match (sb.getBuf channel_id).insert (msg.record_id - sb.channelBase channel_id)
        (padPayload msg.payload) with
    | (some prev, buf2) =>
      some (Except.error (PushError.Duplicate channel_id msg.record_id prev),
        sb.setBuf channel_id buf2)
    | (none, buf2) =>
      some (Except.ok buf2.take.1, sb.setBuf channel_id buf2.take.2)

/-- C4: `SendBuffer::push` returns `OutOfRange` if and only if the record id lies outside
`[base, base + capacity)` where `base` is the number of elements already drained from that
channel's window; an in-range push never returns `OutOfRange`. The hypotheses rule out the
two modelled panics (oversized payload, window bound exceeding `u32`). -/
theorem push_out_of_range_iff (sb : SendBuffer) (c : ChannelId) (m : MessageEnvelope)
    (hlen : m.payload.length ≤ MESSAGE_PAYLOAD_SIZE_BYTES)
    (hfit : sb.channelBase c + sb.channelCapacity c < 2 ^ 32) :
    (∃ e, (sb.push c m).map Prod.fst = some (Except.error e) ∧ e.isOutOfRange = true) ↔
      m.record_id < sb.channelBase c ∨ sb.channelBase c + sb.channelCapacity c ≤ m.record_id := by
  rw [SendBuffer.push, if_neg (not_lt.mpr hlen), if_neg (not_le.mpr hfit)]
  by_cases hr : m.record_id < sb.channelBase c ∨
      sb.channelBase c + sb.channelCapacity c ≤ m.record_id
  · rw [if_pos hr]
    exact iff_of_true ⟨_, rfl, rfl⟩ hr
  · rw [if_neg hr]
    refine iff_of_false (fun hcon => ?_) hr
    obtain ⟨e, he, hoor⟩ := hcon
    rcases hi : (sb.getBuf c).insert (m.record_id - sb.channelBase c) (padPayload m.payload)
      with ⟨o, buf2⟩
    rcases o with _ | prev
    · rw [hi] at he
      simp at he
    · rw [hi] at he
      simp only [Option.map] at he
      cases he
      simp [PushError.isOutOfRange] at hoor

/-- Evaluation witness for `push_out_of_range_iff`: a fresh default-config buffer
(capacity 1, nothing drained) rejects record id 11 as out of range, mirroring the
`rejects_records_out_of_range` test. -/
theorem push_out_of_range_iff_witness :
    ∃ e, ((SendBuffer.new 1 1).push ⟨Role.H1, []⟩ ⟨11, []⟩).map Prod.fst =
        some (Except.error e) ∧ e.isOutOfRange = true :=
  (push_out_of_range_iff (SendBuffer.new 1 1) ⟨Role.H1, []⟩ ⟨11, []⟩
    (by decide) (by decide)).mpr (by decide)

/-- C3 (amended): a push to a slot that was already written returns `Duplicate` no matter
what the new payload is — including a byte-identical repeat of the first push. -/
theorem push_duplicate_always (sb : SendBuffer) (c : ChannelId) (rid : Nat)
    (payload v : List Nat)
    (hlen : payload.length ≤ MESSAGE_PAYLOAD_SIZE_BYTES)
    (hfit : sb.channelBase c + sb.channelCapacity c < 2 ^ 32)
    (hlo : sb.channelBase c ≤ rid) (hhi : rid < sb.channelBase c + sb.channelCapacity c)
    (hslot : (sb.getBuf c).slots[rid - sb.channelBase c]? = some (some v)) :
    (sb.push c ⟨rid, payload⟩).map Prod.fst =
      some (Except.error (PushError.Duplicate c rid v)) := by
  rw [SendBuffer.push, if_neg (not_lt.mpr hlen), if_neg (not_le.mpr hfit),
    if_neg (by simpa using ⟨hlo, hhi⟩)]
  simp [FixedSizeByteVec.insert, hslot]

/-- First test channel `(H1, empty step)`. -/
def chan1 : ChannelId := ⟨Role.H1, []⟩

/-- Second test channel `(H2, empty step)`. -/
def chan2 : ChannelId := ⟨Role.H2, []⟩

/-- Send buffer with ten items per batch, mirroring `Config::default().items_in_batch(10)`
used by the `rejects_duplicates` test. -/
def sbDup0 : SendBuffer := SendBuffer.new 10 1

/-- State of `sbDup0` after pushing the empty message with record id 3 on `chan1`. -/
def sbDup1 : SendBuffer := ((sbDup0.push chan1 ⟨3, []⟩).map Prod.snd).getD sbDup0

/-- C3 counterexample: the claim says a repeated push with a byte-identical payload succeeds
(is idempotent), but repeating the exact push of `rejects_duplicates` — same channel, same
record id 3, same empty payload — returns `Duplicate`, as that in-repo test itself asserts. -/
theorem push_identical_duplicate_counterexample :
    (sbDup0.push chan1 ⟨3, []⟩).map Prod.fst = some (Except.ok none) ∧
      (sbDup1.push chan1 ⟨3, []⟩).map Prod.fst =
        some (Except.error (PushError.Duplicate chan1 3
          (List.replicate MESSAGE_PAYLOAD_SIZE_BYTES 0))) :=
  ⟨rfl, rfl⟩

/-- Evaluation witness for `push_duplicate_always`: the occupied slot 3 of `sbDup1` rejects a
second push whether the payload differs (here `[7]`) or not. -/
theorem push_duplicate_always_witness :
    (sbDup1.push chan1 ⟨3, [7]⟩).map Prod.fst =
      some (Except.error (PushError.Duplicate chan1 3
        (List.replicate MESSAGE_PAYLOAD_SIZE_BYTES 0))) :=
  push_duplicate_always sbDup1 chan1 3 [7] (List.replicate MESSAGE_PAYLOAD_SIZE_BYTES 0)
    (by decide) (by decide) (by decide) (by decide) (by decide)

/-- C10: a push on channel `c` never touches the state of a different channel `c2`: whether
the push succeeds, flushes, or returns `OutOfRange`/`Duplicate`, the other channel's window
(drained base, stored payloads, accepted range) is untouched. -/
theorem push_other_channels_untouched (sb : SendBuffer) (c : ChannelId) (m : MessageEnvelope)
    (c2 : ChannelId) (hne : c2 ≠ c)
    (res : Except PushError (Option (List Nat))) (sb2 : SendBuffer)
    (hpush : sb.push c m = some (res, sb2)) :
    sb2.inner c2 = sb.inner c2 := by
  rw [SendBuffer.push] at hpush
  split at hpush
  · exact absurd hpush (by simp)
  · split at hpush
    · exact absurd hpush (by simp)
    · split at hpush
      · rw [Option.some.injEq, Prod.mk.injEq] at hpush
        rw [← hpush.2]
        simp [SendBuffer.setBuf, hne]
      · split at hpush
        · rw [Option.some.injEq, Prod.mk.injEq] at hpush
          rw [← hpush.2]
          simp [SendBuffer.setBuf, hne]
        · rw [Option.some.injEq, Prod.mk.injEq] at hpush
          rw [← hpush.2]
          simp [SendBuffer.setBuf, hne]

/-- Evaluation witness for `push_other_channels_untouched`: a flushing push on `chan1` leaves
`chan2` absent from the map, mirroring the `offset_is_per_channel` test setup. -/
theorem push_other_channels_untouched_witness :
    ((((SendBuffer.new 1 1).push chan1 ⟨0, []⟩).map Prod.snd).getD
        (SendBuffer.new 1 1)).inner chan2 = (SendBuffer.new 1 1).inner chan2 :=
  push_other_channels_untouched (SendBuffer.new 1 1) chan1 ⟨0, []⟩ chan2 (by decide)
    (Except.ok (some (List.replicate MESSAGE_PAYLOAD_SIZE_BYTES 0)))
    ((((SendBuffer.new 1 1).push chan1 ⟨0, []⟩).map Prod.snd).getD (SendBuffer.new 1 1))
    rfl

section Reshare

variable {F : Type} [CommRing F]

/-- Value computed and sent by `to_helper`'s left peer in semi-honest reshare
(`src/protocol/basics/reshare.rs` line 88): `part1 = self.left() + self.right() - r.1`,
where `sh` gives each party's replicated pair and `prss` each party's PRSS pair
`(r.0, r.1)` at the record index. -/
def reshare_part1 (sh prss : Role → F × F) (to_helper : Role) : F :=
  (sh (to_helper.peer .Left)).1 + (sh (to_helper.peer .Left)).2 -
    (prss (to_helper.peer .Left)).2

/-- Value computed and sent by `to_helper`'s right peer (`reshare.rs` line 103):
`part2 = self.left() - r.0`. -/
def reshare_part2 (sh prss : Role → F × F) (to_helper : Role) : F :=
  (sh (to_helper.peer .Right)).1 - (prss (to_helper.peer .Right)).1

/-- One-round message delivery of the reshare protocol: `to_helper`'s left peer sends
`part1` to `to_helper`'s right peer, and `to_helper`'s right peer sends `part2` to
`to_helper`'s left peer; `to_helper` itself receives nothing. -/
def reshare_received (sh prss : Role → F × F) (to_helper receiver : Role) : Option F :=
  if receiver = to_helper.peer .Right then some (reshare_part1 sh prss to_helper)
  else if receiver = to_helper.peer .Left then some (reshare_part2 sh prss to_helper)
  else none

/-- Per-party output of semi-honest reshare (`reshare.rs` lines 83–117): each branch
combines the locally computed part with the received one exactly as the source does. -/
def reshare_output (sh prss : Role → F × F) (to_helper me : Role) : F × F :=
  if me = to_helper.peer .Left then
    ((sh me).1 + (sh me).2 - (prss me).2 +
        (reshare_received sh prss to_helper me).getD 0,
      (prss me).2)
  else if me = to_helper.peer .Right then
    ((prss me).1,
      (reshare_received sh prss to_helper me).getD 0 + ((sh me).1 - (prss me).1))
  else
    ((prss me).1, (prss me).2)

/-- C5: the semi-honest reshare protocol terminates with exactly the prescribed layout. With
`(r0, r1)` read as each helper's own PRSS output at the record index (the convention of the
doc comment in `reshare.rs`): `to_helper`'s left peer computes `part1 = aL + aR − r1` and
sends it to `to_helper`'s right peer; `to_helper`'s right peer computes `part2 = aL − r0` and
sends it to `to_helper`'s left peer; the outputs are `(r0, r1)` at `to_helper`,
`(part1 + part2, r1)` at its left peer and `(r0, part1 + part2)` at its right peer. -/
theorem reshare_semi_honest_layout (sh prss : Role → F × F) (to_helper : Role) :
    reshare_received sh prss to_helper (to_helper.peer .Right) =
      some ((sh (to_helper.peer .Left)).1 + (sh (to_helper.peer .Left)).2 -
        (prss (to_helper.peer .Left)).2) ∧
    reshare_received sh prss to_helper (to_helper.peer .Left) =
      some ((sh (to_helper.peer .Right)).1 - (prss (to_helper.peer .Right)).1) ∧
    reshare_received sh prss to_helper to_helper = none ∧
    reshare_output sh prss to_helper to_helper =
      ((prss to_helper).1, (prss to_helper).2) ∧
    reshare_output sh prss to_helper (to_helper.peer .Left) =
      (reshare_part1 sh prss to_helper + reshare_part2 sh prss to_helper,
        (prss (to_helper.peer .Left)).2) ∧
    reshare_output sh prss to_helper (to_helper.peer .Right) =
      ((prss (to_helper.peer .Right)).1,
        reshare_part1 sh prss to_helper + reshare_part2 sh prss to_helper) := by
  cases to_helper <;>
    simp [reshare_received, reshare_output, reshare_part1, reshare_part2, Role.peer]

/-- C6: starting from a rotationally consistent replicated sharing `sh i = (x i, x (i+1))`
and pairwise consistent PRSS outputs `prss i = (ρ i, ρ (i+1))` (party `i`'s `rL` equals
party `i−1`'s `rR`), the sum of the three distinct additive shares held after reshare — the
first components of the three outputs — reconstructs the original secret
`x H1 + x H2 + x H3`, for every target helper. -/
theorem reshare_reconstructs (sh prss : Role → F × F) (x ρ : Role → F) (to_helper : Role)
    (hsh : ∀ i, sh i = (x i, x (i.peer .Right)))
    (hprss : ∀ i, prss i = (ρ i, ρ (i.peer .Right))) :
    (reshare_output sh prss to_helper .H1).1 + (reshare_output sh prss to_helper .H2).1 +
        (reshare_output sh prss to_helper .H3).1 =
      x .H1 + x .H2 + x .H3 := by
  cases to_helper <;>
    simp [reshare_received, reshare_output, reshare_part1, reshare_part2, Role.peer,
      hsh, hprss] <;>
    ring

/-- Concrete secret shares over `ℤ` for the reconstruction witness. -/
def exShare : Role → ℤ × ℤ
  | .H1 => (3, 5)
  | .H2 => (5, 7)
  | .H3 => (7, 3)

/-- Concrete PRSS pairs over `ℤ` for the reconstruction witness. -/
def exPrss : Role → ℤ × ℤ
  | .H1 => (2, 4)
  | .H2 => (4, 6)
  | .H3 => (6, 2)

/-- Underlying additive shares of `exShare`. -/
def exX : Role → ℤ
  | .H1 => 3
  | .H2 => 5
  | .H3 => 7

/-- Underlying PRSS values of `exPrss`. -/
def exRho : Role → ℤ
  | .H1 => 2
  | .H2 => 4
  | .H3 => 6

/-- Evaluation witness for `reshare_reconstructs` at the concrete sharing of 15 over `ℤ`. -/
theorem reshare_reconstructs_witness :
    (reshare_output exShare exPrss .H1 .H1).1 + (reshare_output exShare exPrss .H1 .H2).1 +
        (reshare_output exShare exPrss .H1 .H3).1 =
      exX .H1 + exX .H2 + exX .H3 :=
  reshare_reconstructs exShare exPrss exX exRho .H1
    (fun i => by cases i <;> rfl) (fun i => by cases i <;> rfl)

end Reshare

/-- Outcome of the `per_user_credit_cap` dispatch at the end of `OprfIpaQuery::execute`
(`ipa-core/src/query/runner/oprf_ipa.rs` lines 150–162): either the query proceeds into
`oprf_ipa` with the chosen `SS` const parameter, or the `_` arm runs
`panic!("Invalid value specified for per-user cap: ...")`. The source has no `InvalidConfig`
error anywhere; an illegal cap panics instead of returning an error value. -/
inductive CapDispatch
  | dispatched (ss : Nat)
  | panicked
deriving DecidableEq, Repr

/-- The `match config.per_user_credit_cap` dispatch of `OprfIpaQuery::execute`, arm by arm:
`1 => SS 1`, `2 | 4 => SS 2`, `8 => SS 3`, `16 => SS 4`, `32 => SS 5`, `64 => SS 6`,
`128 => SS 7`, `_ => panic!`. -/
def perUserCapDispatch (cap : Nat) : CapDispatch :=
  if cap = 1 then .dispatched 1
  else if cap = 2 ∨ cap = 4 then .dispatched 2
  else if cap = 8 then .dispatched 3
  else if cap = 16 then .dispatched 4
  else if cap = 32 then .dispatched 5
  else if cap = 64 then .dispatched 6
  else if cap = 128 then .dispatched 7
  else .panicked

/-- C2 counterexample: for `per_user_credit_cap = 3` the claim predicts a query failure with
the `InvalidConfig` error, but `OprfIpaQuery::execute` hits the `_` arm and panics — it does
not return an error value at all (no `InvalidConfig` error exists in the sources). -/
theorem cap_dispatch_counterexample : perUserCapDispatch 3 = CapDispatch.panicked := rfl

/-- C2 (amended): `OprfIpaQuery::execute` panics on exactly the caps outside
`{1,2,4,8,16,32,64,128}`; every cap inside the set is dispatched into `oprf_ipa` (so it
neither panics nor reports a bad configuration). -/
theorem cap_dispatch_panics_iff (cap : Nat) :
    perUserCapDispatch cap = CapDispatch.panicked ↔
      ¬(cap = 1 ∨ cap = 2 ∨ cap = 4 ∨ cap = 8 ∨ cap = 16 ∨ cap = 32 ∨ cap = 64 ∨
        cap = 128) := by
  unfold perUserCapDispatch
  split <;> rename_i h1
  · simp [h1]
  · split <;> rename_i h2
    · rcases h2 with h2 | h2 <;> simp [h2]
    · split <;> rename_i h3
      · simp [h3]
      · split <;> rename_i h4
        · simp [h4]
        · split <;> rename_i h5
          · simp [h5]
          · split <;> rename_i h6
            · simp [h6]
            · split <;> rename_i h7
              · simp [h7]
              · refine iff_of_true rfl ?_
                simp only [not_or]
                push_neg at h2
                exact ⟨h1, h2.1, h2.2, h3, h4, h5, h6, h7⟩

section MaliciousReshare

variable {F : Type} [CommRing F] [DecidableEq F]

/-- Rotationally consistent replicated sharing built from additive shares:
party `i` holds `(x i, x (i+1))`. -/
def shOf (x : Role → F) : Role → F × F := fun i => (x i, x (i.peer .Right))

/-- Pairwise consistent PRSS pairs built from per-edge values: party `i`'s `(rL, rR)` is
`(ρ i, ρ (i+1))`, so party `i`'s `rL` equals party `i−1`'s `rR`. -/
def prssOf (ρ : Role → F) : Role → F × F := fun i => (ρ i, ρ (i.peer .Right))

/-- The `part1` value of `reshare_with_additive_attack` (`reshare.rs` lines 366–371): the
left peer of `to_helper` adds `err` before sending when it is the attacker. -/
def attack_part1 (sh prss : Role → F × F) (to_helper : Role) (err : F) (attacker : Role) : F :=
  reshare_part1 sh prss to_helper + (if attacker = to_helper.peer .Left then err else 0)

/-- The `part2` value of `reshare_with_additive_attack` (`reshare.rs` lines 377–384): the
right peer of `to_helper` adds `err` before sending when it is the attacker. -/
def attack_part2 (sh prss : Role → F × F) (to_helper : Role) (err : F) (attacker : Role) : F :=
  reshare_part2 sh prss to_helper + (if attacker = to_helper.peer .Right then err else 0)

/-- Per-party output of the reshare round in which one party mounts the additive attack of
`reshare_with_additive_attack`; honest parties follow the plain protocol (`err` enters only
through the attacker's own part). -/
def reshare_attack_output (sh prss : Role → F × F) (to_helper : Role) (err : F)
    (attacker me : Role) : F × F :=
  if me = to_helper.peer .Left then
    (attack_part1 sh prss to_helper err attacker + attack_part2 sh prss to_helper err attacker,
      (prss me).2)
  else if me = to_helper.peer .Right then
    ((prss me).1,
      attack_part1 sh prss to_helper err attacker + attack_part2 sh prss to_helper err attacker)
  else
    ((prss me).1, (prss me).2)

/-- Revealing a consistent replicated sharing: sum of the three distinct additive shares
(first components). -/
def reconstruct_first (out : Role → F × F) : F :=
  (out .H1).1 + (out .H2).1 + (out .H3).1

/-- Errors surfaced by the malicious-security layer (`Error::MaliciousSecurityCheckFailed`). -/
inductive MpcError
  | MaliciousSecurityCheckFailed
deriving DecidableEq, Repr

/-- Modelled from the spec: `MaliciousValidator::validate` (`src/protocol/malicious` is not
under `src/`; only its caller, the reshare test, is). Spec §4.10: the validator absorbs the
pair `(z, r·z)` into running shares `u` and `w` with a PRSS-generated random coefficient;
on validate, the parties reveal `u` and `w` and the check succeeds iff `r·u == w` computed
from the revealed MAC key `r`, otherwise the query aborts with
`MaliciousSecurityCheckFailed` and nothing is revealed. For the single reshared record,
`u = coeff · z` and `w = coeff · rz` with `z`, `rz` the revealed (reconstructed) outputs. -/
def validate (r coeff : F) (xout rxout : Role → F × F) : Except MpcError F :=
  if r * (coeff * reconstruct_first xout) = coeff * reconstruct_first rxout then
    Except.ok (reconstruct_first xout)
  else
    Except.error MpcError.MaliciousSecurityCheckFailed

omit [DecidableEq F] in
/-- Reconstruction of an attacked reshare output: the additive error injected into `part1`
or `part2` shifts the revealed secret by exactly `err`. -/
theorem reconstruct_attack (x ρ : Role → F) (to_helper : Role) (err : F) (attacker : Role)
    (h : attacker = to_helper.peer .Left ∨ attacker = to_helper.peer .Right) :
    reconstruct_first (fun me => reshare_attack_output (shOf x) (prssOf ρ) to_helper err
        attacker me) =
      x .H1 + x .H2 + x .H3 + err := by
  rcases h with h | h <;> subst h <;> cases to_helper <;>
    simp [reconstruct_first, reshare_attack_output, attack_part1, attack_part2,
      reshare_part1, reshare_part2, shOf, prssOf, Role.peer] <;>
    ring

/-- C9 (amended): if one party adds a nonzero additive error to `part1` or `part2` in a
malicious-context reshare (the error enters both the `x` and the `r·x` component reshares,
as in `reshare_malicious_with_additive_attack`), then `validate` returns
`MaliciousSecurityCheckFailed` — provided the validator's random coefficient is nonzero and
the MAC key `r ≠ 1`; with `r = 1` (probability `1/|F|` over the PRSS choice of `r`) the
check passes despite the attack. -/
theorem malicious_reshare_attack_validation_fails {K : Type} [Field K] [DecidableEq K]
    (x y ρx ρy : Role → K) (r coeff err : K) (to_helper attacker : Role)
    (hattacker : attacker = to_helper.peer .Left ∨ attacker = to_helper.peer .Right)
    (hmac : y .H1 + y .H2 + y .H3 = r * (x .H1 + x .H2 + x .H3))
    (herr : err ≠ 0) (hcoeff : coeff ≠ 0) (hr : r ≠ 1) :
    validate r coeff
        (fun me => reshare_attack_output (shOf x) (prssOf ρx) to_helper err attacker me)
        (fun me => reshare_attack_output (shOf y) (prssOf ρy) to_helper err attacker me) =
      Except.error MpcError.MaliciousSecurityCheckFailed := by
  rw [validate, reconstruct_attack x ρx to_helper err attacker hattacker,
    reconstruct_attack y ρy to_helper err attacker hattacker, hmac, if_neg]
  intro hcon
  have hzero : coeff * (err * (r - 1)) = 0 := by linear_combination hcon
  rcases mul_eq_zero.mp hzero with h | h
  · exact hcoeff h
  · rcases mul_eq_zero.mp h with h | h
    · exact herr h
    · exact hr (sub_eq_zero.mp h)

/-- Additive shares of the secret 6 over `ℚ` for the attack witness. -/
def atkX : Role → ℚ
  | .H1 => 1
  | .H2 => 2
  | .H3 => 3

/-- Additive shares of `r·6 = 12` (MAC key `r = 2`) over `ℚ` for the attack witness. -/
def atkY : Role → ℚ
  | .H1 => 4
  | .H2 => 4
  | .H3 => 4

/-- PRSS edge values over `ℚ` for the attack witness. -/
def atkRho : Role → ℚ
  | .H1 => 5
  | .H2 => 1
  | .H3 => 2

/-- Evaluation witness for `malicious_reshare_attack_validation_fails`: MAC key 2,
coefficient 1, error 1 injected by `H3` (the left peer of target `H1`). -/
theorem malicious_reshare_attack_validation_fails_witness :
    validate 2 1
        (fun me => reshare_attack_output (shOf atkX) (prssOf atkRho) .H1 1 .H3 me)
        (fun me => reshare_attack_output (shOf atkY) (prssOf atkRho) .H1 1 .H3 me) =
      Except.error MpcError.MaliciousSecurityCheckFailed :=
  malicious_reshare_attack_validation_fails atkX atkY atkRho atkRho 2 1 1 .H1 .H3
    (Or.inl rfl) (by norm_num [atkX, atkY]) (by norm_num) (by norm_num) (by norm_num)

/-- Additive shares of the secret 6 over `ℤ` for the `r = 1` counterexample. -/
def cxX : Role → ℤ
  | .H1 => 1
  | .H2 => 2
  | .H3 => 3

/-- Additive shares of `r·6 = 6` (MAC key `r = 1`) over `ℤ` for the counterexample. -/
def cxY : Role → ℤ
  | .H1 => 2
  | .H2 => 2
  | .H3 => 2

/-- PRSS edge values over `ℤ` for the counterexample. -/
def cxRho : Role → ℤ
  | .H1 => 5
  | .H2 => 1
  | .H3 => 2

/-- C9 counterexample: with MAC key `r = 1` the very same additive attack (error 1 injected
by `H3` into `part1`, on both component reshares) makes `validate` return a result — the
shifted secret `7` — instead of `MaliciousSecurityCheckFailed`, so the claim's unconditional
failure does not hold. -/
theorem malicious_reshare_attack_r_one_counterexample :
    validate 1 1
        (fun me => reshare_attack_output (shOf cxX) (prssOf cxRho) .H1 1 .H3 me)
        (fun me => reshare_attack_output (shOf cxY) (prssOf cxRho) .H1 1 .H3 me) =
      Except.ok 7 := rfl

end MaliciousReshare

/-- Plaintext input row of the OPRF IPA query, the `TestRawDataRecord` layout used by
`encrypted_reports` (`oprf_ipa.rs` lines 193–236): timestamp, match key (`user_id`),
event type, breakdown key and trigger value. -/
structure TestRawDataRecord where
  timestamp : Nat
  user_id : Nat
  is_trigger_report : Bool
  breakdown_key : Nat
  trigger_value : Nat
deriving DecidableEq, Repr

/-- Modelled from the spec: the attribution-and-capping pass over one user's events in
stream order (`oprf_ipa`'s attribution stage lives in `src/protocol/ipa_prf`, which is not
under `src/`). Spec §4.8: a trigger event inherits the closest preceding source event's
breakdown key and adds its trigger value to the running per-user credit; triggers with no
preceding source contribute nothing; once the running total reaches `per_user_credit_cap`,
subsequent contributions are forced to zero (each credit is clamped to the remaining
headroom). Returns the per-event `(breakdown_key, credit)` pairs. -/
def attributeUser (cap : Nat) : Option Nat → Nat → List TestRawDataRecord → List (Nat × Nat)
  | _, _, [] => []
  | curBk, total, r :: rest =>
    if r.is_trigger_report then
      match curBk with
      | none => attributeUser cap none total rest
      | some b =>
        (b, min r.trigger_value (cap - total)) ::
          attributeUser cap (some b) (total + min r.trigger_value (cap - total)) rest
    else
      attributeUser cap (some r.breakdown_key) total rest

/-- Distinct match keys of the input, in first-appearance order. -/
def user_ids (rows : List TestRawDataRecord) : List Nat :=
  (rows.map fun r => r.user_id).dedup

/-- Modelled from the spec: all `(breakdown_key, credit)` pairs of the query. Spec §2/§4.7:
the OPRF sort groups events of one user adjacently and stably, so each user's events are
processed in input-stream order; attribution then runs per user. -/
def all_credits (cap : Nat) (rows : List TestRawDataRecord) : List (Nat × Nat) :=
  (user_ids rows).flatMap fun u =>
    attributeUser cap none 0 (rows.filter fun r => r.user_id == u)

/-- Modelled from the spec: the revealed per-bucket output of the OPRF IPA query without
differential privacy. Spec §4.9: for each breakdown value `b` in `[0, max_breakdown_key)`,
sum the credits attributed to `b`; under `NoDp` the noise step is skipped, so the revealed
vector is exactly these bucket totals. -/
def oprf_ipa (cap max_breakdown_key : Nat) (rows : List TestRawDataRecord) : List Nat :=
  (List.range max_breakdown_key).map fun b =>
    (((all_credits cap rows).filter fun p => p.1 == b).map fun p => p.2).sum

/-- The six end-to-end reports of the `encrypted_reports` test (`oprf_ipa.rs` lines
193–236). -/
def c1Records : List TestRawDataRecord :=
  [⟨0, 12345, false, 2, 0⟩,
   ⟨4, 68362, false, 1, 0⟩,
   ⟨10, 12345, true, 0, 5⟩,
   ⟨12, 68362, true, 0, 2⟩,
   ⟨20, 68362, false, 1, 0⟩,
   ⟨30, 68362, true, 1, 7⟩]

/-- C1: on the six-report end-to-end input, with per-user cap 8, three breakdown buckets and
no differential privacy, the reconstructed query output is `[0, 8, 5]` — user 12345's
trigger of 5 lands on breakdown 2, and user 68362's triggers of 2 and 7 both land on
breakdown 1, capped from 9 to 8. -/
theorem oprf_ipa_end_to_end : oprf_ipa 8 3 c1Records = [0, 8, 5] := rfl

/-- C7: on the empty input stream, with per-user cap 8 and three breakdown buckets, the
query completes and outputs one zero per bucket: `[0, 0, 0]`. -/
theorem oprf_ipa_empty_input : oprf_ipa 8 3 [] = [0, 0, 0] := rfl

section RadixSort

variable {α : Type} {β : Type} {γ : Type}

/-- Modelled from the spec: the stable permutation sorting records by one value in
`[0, bound)` (`multi_bit_permutation`, `src/protocol/sort/multi_bit_permutation.rs`, is not
under `src/`). Spec §4.4: the Chida et al. construction builds prefix sums of bit-indicator
vectors, i.e. a counting sort — records are emitted bucket by bucket in increasing bucket
value, each bucket keeping input order. -/
def stableSortBy (f : α → Nat) (bound : Nat) (l : List α) : List α :=
  (List.range bound).flatMap fun v => l.filter fun x => f x == v

/-- Flat-mapping over a mapped list composes the functions. -/
theorem flatMap_map_list (l : List β) (g : β → γ) (f : γ → List α) :
    (l.map g).flatMap f = l.flatMap fun b => f (g b) := by
  induction l with
  | nil => rfl
  | cons b t ih => simp [ih]

/-- Filtering distributes over flat-mapping. -/
theorem filter_flatMap_comm (vs : List β) (g : β → List α) (p : α → Bool) :
    ((vs.flatMap g).filter p) = vs.flatMap fun v => (g v).filter p := by
  induction vs with
  | nil => rfl
  | cons v t ih => simp [List.filter_append, ih]

/-- Flat-mapping a family of empty lists yields the empty list. -/
theorem flatMap_nil_of_all (vs : List β) (g : β → List α) (h : ∀ v ∈ vs, g v = []) :
    vs.flatMap g = [] := by
  induction vs with
  | nil => rfl
  | cons v t ih =>
    rw [List.flatMap_cons, h v (by simp), List.nil_append]
    exact ih fun w hw => h w (by simp [hw])

/-- Flat-map congruence on the members of the index list. -/
theorem flatMap_congr_list (vs : List β) (g1 g2 : β → List α) (h : ∀ v ∈ vs, g1 v = g2 v) :
    vs.flatMap g1 = vs.flatMap g2 := by
  induction vs with
  | nil => rfl
  | cons v t ih =>
    rw [List.flatMap_cons, List.flatMap_cons, h v (by simp),
      ih fun w hw => h w (by simp [hw])]

/-- Flat-mapping an indicator family over a list containing `k` once yields the `k` entry. -/
theorem flatMap_indicator (vs : List Nat) (k : Nat) (L0 : List α)
    (hnd : vs.Nodup) (hk : k ∈ vs) :
    (vs.flatMap fun v => if v = k then L0 else []) = L0 := by
  induction vs with
  | nil => cases hk
  | cons v t ih =>
    rcases List.nodup_cons.mp hnd with ⟨hv, hnd2⟩
    rw [List.flatMap_cons]
    by_cases h : v = k
    · subst h
      have hrest : (t.flatMap fun w => if w = v then L0 else []) = [] := by
        refine flatMap_nil_of_all t _ fun w hw => if_neg fun hwv => ?_
        exact hv (hwv ▸ hw)
      rw [if_pos rfl, hrest, List.append_nil]
    · rw [if_neg h, List.nil_append]
      have h1 : k ∈ t := by
        rcases List.mem_cons.mp hk with h2 | h2
        · exact absurd h2.symm h
        · exact h2
      exact ih hnd2 h1

/-- Sum of a one-point indicator over `range A`. -/
theorem sum_map_indicator (A k c : Nat) :
    ((List.range A).map fun v => if k = v then c else 0).sum = if k < A then c else 0 := by
  induction A with
  | zero => simp
  | succ n ih =>
    rw [List.range_succ, List.map_append, List.sum_append, ih]
    by_cases h1 : k < n
    · rw [if_pos h1, if_pos (by omega)]
      simp [show k ≠ n by omega]
    · by_cases h2 : k = n
      · subst h2
        rw [if_neg h1, if_pos (by omega)]
        simp
      · rw [if_neg h1, if_neg (by omega)]
        simp [h2]

/-- Multiplicity of any element under `stableSortBy`. -/
theorem count_stableSortBy [DecidableEq α] (f : α → Nat) (A : Nat) (l : List α) (y : α) :
    (stableSortBy f A l).count y = if f y < A then l.count y else 0 := by
  rw [stableSortBy, List.count_flatMap]
  have h : ∀ v ∈ List.range A,
      (List.count y ∘ fun v => l.filter fun x => f x == v) v =
        (fun v => if f y = v then l.count y else 0) v := by
    intro v _
    by_cases hv : f y = v
    · simp only [Function.comp_apply]
      rw [List.count_filter (by simp [hv]), if_pos hv]
    · simp only [Function.comp_apply]
      rw [if_neg hv, List.count_eq_zero.mpr]
      intro hmem
      exact hv (by simpa using (List.mem_filter.mp hmem).2)
  rw [List.map_congr_left h, sum_map_indicator]

/-- `stableSortBy` permutes its input when the sort values are within the bucket range. -/
theorem stableSortBy_perm [DecidableEq α] (f : α → Nat) (A : Nat) (l : List α)
    (hb : ∀ x ∈ l, f x < A) : (stableSortBy f A l).Perm l := by
  refine List.perm_iff_count.mpr fun y => ?_
  rw [count_stableSortBy]
  by_cases h : f y < A
  · rw [if_pos h]
  · rw [if_neg h, eq_comm, List.count_eq_zero]
    intro hy
    exact h (hb y hy)

/-- Every list whose members are pairwise related is `Pairwise`. -/
theorem pairwise_of_all {R : α → α → Prop} (l : List α) (h : ∀ a ∈ l, ∀ b ∈ l, R a b) :
    l.Pairwise R := by
  induction l with
  | nil => exact List.Pairwise.nil
  | cons a t ih =>
    exact List.Pairwise.cons (fun b hb => h a (by simp) b (by simp [hb]))
      (ih fun x hx y hy => h x (by simp [hx]) y (by simp [hy]))

/-- `stableSortBy` output is sorted by the sort value. -/
theorem stableSortBy_pairwise (f : α → Nat) (A : Nat) (l : List α) :
    (stableSortBy f A l).Pairwise fun a b => f a ≤ f b := by
  rw [stableSortBy, List.flatMap_def, List.pairwise_flatten]
  constructor
  · intro t ht
    rw [List.mem_map] at ht
    obtain ⟨v, _, rfl⟩ := ht
    refine pairwise_of_all _ fun a ha b hb => ?_
    have ha2 : f a = v := by simpa using (List.mem_filter.mp ha).2
    have hb2 : f b = v := by simpa using (List.mem_filter.mp hb).2
    omega
  · rw [List.pairwise_map]
    refine (List.pairwise_lt_range A).imp ?_
    intro v w hvw x hx y hy
    have hx2 : f x = v := by simpa using (List.mem_filter.mp hx).2
    have hy2 : f y = w := by simpa using (List.mem_filter.mp hy).2
    omega

/-- Stability of `stableSortBy`: the records carrying any fixed sort value appear in the
output exactly as they appear in the input. -/
theorem stableSortBy_filter (f : α → Nat) (A : Nat) (l : List α) (k : Nat)
    (hb : ∀ x ∈ l, f x < A) :
    (stableSortBy f A l).filter (fun x => f x == k) = l.filter fun x => f x == k := by
  by_cases hk : k < A
  · rw [stableSortBy, filter_flatMap_comm]
    have heach : ∀ v ∈ List.range A,
        (fun v => (l.filter fun x => f x == v).filter fun x => f x == k) v =
          (fun v => if v = k then l.filter (fun x => f x == k) else []) v := by
      intro v _
      show ((l.filter fun x => f x == v).filter fun x => f x == k) =
        if v = k then l.filter (fun x => f x == k) else []
      rw [List.filter_filter]
      by_cases h : v = k
      · subst h
        rw [if_pos rfl]
        exact List.filter_congr fun x _ => Bool.and_self _
      · rw [if_neg h]
        refine List.filter_eq_nil_iff.mpr fun a _ hcon => ?_
        have h2 : f a = k ∧ f a = v := by simpa using hcon
        exact h (h2.2 ▸ h2.1)
    rw [flatMap_congr_list (List.range A)
        (fun v => (l.filter fun x => f x == v).filter fun x => f x == k)
        (fun v => if v = k then l.filter (fun x => f x == k) else []) heach,
      flatMap_indicator _ _ _ (List.nodup_range A) (List.mem_range.mpr hk)]
  · rw [List.filter_eq_nil_iff.mpr, List.filter_eq_nil_iff.mpr]
    · intro a ha hcon
      exact hk ((by simpa using hcon : f a = k) ▸ hb a ha)
    · intro a ha hcon
      have ha2 : a ∈ l := by
        obtain ⟨v, _, hv⟩ := List.mem_flatMap.mp ha
        exact (List.mem_filter.mp hv).1
      exact hk ((by simpa using hcon : f a = k) ▸ hb a ha2)

/-- `range (B * A)` flat-maps as a double flat-map over quotient and remainder. -/
theorem range_mul_flatMap (B A : Nat) (g : Nat → List α) :
    (List.range (B * A)).flatMap g =
      (List.range B).flatMap fun v => (List.range A).flatMap fun w => g (v * A + w) := by
  induction B with
  | zero => simp
  | succ n ih =>
    rw [Nat.succ_mul, List.range_add, List.flatMap_append, ih, List.range_succ,
      List.flatMap_append, flatMap_map_list]
    simp

/-- Euclidean uniqueness: `a * A + b` determines `a` and `b` when `b, d < A`. -/
theorem mul_add_inj {A a b c d : Nat} (hb : b < A) (hd : d < A)
    (h : a * A + b = c * A + d) : a = c ∧ b = d := by
  have hbd : b = d := by
    have e1 : (A * a + b) % A = b := by rw [Nat.mul_add_mod, Nat.mod_eq_of_lt hb]
    have e2 : (A * c + d) % A = d := by rw [Nat.mul_add_mod, Nat.mod_eq_of_lt hd]
    rw [← e1, ← e2, Nat.mul_comm A a, Nat.mul_comm A c, h]
  have hac : a * A = c * A := by
    have h2 := h
    rw [hbd] at h2
    exact Nat.add_right_cancel h2
  exact ⟨Nat.eq_of_mul_eq_mul_right (by omega) hac, hbd⟩

/-- Composition of stable bucket sorts: bucket-sorting by `g` a list already bucket-sorted
by `f` is the single stable bucket sort by the lexicographic value `g · * A + f ·`. This is
the content of the radix-sort step: the pass on the next bit block refines, not disturbs,
the order established by the lower bits. -/
theorem stableSortBy_compose (f g : α → Nat) (A B : Nat) (l : List α)
    (hf : ∀ x ∈ l, f x < A) :
    stableSortBy g B (stableSortBy f A l) =
      stableSortBy (fun x => g x * A + f x) (B * A) l := by
  rw [stableSortBy, stableSortBy, stableSortBy, range_mul_flatMap]
  refine flatMap_congr_list _ _ _ fun v _ => ?_
  rw [filter_flatMap_comm]
  refine flatMap_congr_list _ _ _ fun w hw => ?_
  rw [List.filter_filter]
  refine List.filter_congr fun x hx => ?_
  have hfx := hf x hx
  have hwA := List.mem_range.mp hw
  rw [Bool.eq_iff_iff]
  simp only [Bool.and_eq_true, beq_iff_eq]
  constructor
  · rintro ⟨h1, h2⟩
    rw [h1, h2]
  · exact fun h => mul_add_inj hfx hwA h

/-- Recombining a block of bits on top of the lower bits: block value times `2^b` plus the
low remainder is the remainder modulo `2^(b+w)`. -/
theorem blockVal_combine (key : α → Nat) (b w : Nat) (x : α) :
    key x / 2 ^ b % 2 ^ w * 2 ^ b + key x % 2 ^ b = key x % 2 ^ (b + w) := by
  rw [pow_add, Nat.mod_mul]
  ring

/-- `stableSortBy` congruence in the sort value, pointwise on the list members. -/
theorem stableSortBy_congr (f f2 : α → Nat) (A : Nat) (l : List α)
    (h : ∀ x ∈ l, f x = f2 x) : stableSortBy f A l = stableSortBy f2 A l := by
  rw [stableSortBy, stableSortBy]
  refine flatMap_congr_list _ _ _ fun v _ => List.filter_congr fun x hx => ?_
  rw [h x hx]

/-- Enlarging the bucket range beyond every sort value does not change `stableSortBy`. -/
theorem stableSortBy_bound_le (f : α → Nat) (A B : Nat) (l : List α) (hAB : A ≤ B)
    (hb : ∀ x ∈ l, f x < A) : stableSortBy f B l = stableSortBy f A l := by
  rw [stableSortBy, stableSortBy, show B = A + (B - A) by omega, List.range_add,
    List.flatMap_append, flatMap_map_list]
  have hnil : (List.range (B - A)).flatMap
      (fun b => l.filter fun x => f x == A + b) = [] := by
    refine flatMap_nil_of_all _ _ fun v _ => List.filter_eq_nil_iff.mpr fun a ha hcon => ?_
    have h1 := hb a ha
    have h2 : f a = A + v := by simpa using hcon
    omega
  rw [hnil, List.append_nil]

/-- Bucket-sorting by the trivial value `key % 2^0` leaves the list unchanged. -/
theorem stableSortBy_mod_one (key : α → Nat) (l : List α) :
    stableSortBy (fun x => key x % 2 ^ 0) (2 ^ 0) l = l := by
  rw [stableSortBy, show List.range (2 ^ 0) = [0] from rfl, List.flatMap_cons,
    List.flatMap_nil, List.append_nil]
  exact List.filter_eq_self.mpr fun a _ => by simp [Nat.mod_one]

/-- Modelled from the spec: the block loop of `generate_permutation_opt`
(`src/protocol/sort/generate_permutation_opt.rs` lines 42–126) at plaintext row level. The
underlying gadgets (`multi_bit_permutation`, `shuffle_and_reveal_permutation`,
`secureapplyinv`, `compose`) are not under `src/`; spec §4.4/§4.6 give their plaintext
semantics: each iteration applies the composed permutation so far, computes the stable
bit-block permutation for bits `[b, min (b + num_multi_bits) num_bits)`, and composes.
Maintaining the permuted row list directly, one iteration is a stable bucket sort by the
current bit block, starting at `b = 0` and stepping by `num_multi_bits`. -/
def radix_sort_pass (key : α → Nat) (num_bits num_multi_bits : Nat) : Nat → List α → List α
  | b, l =>
    if h : 0 < num_multi_bits ∧ b < num_bits then
      radix_sort_pass key num_bits num_multi_bits (b + num_multi_bits)
        (stableSortBy (fun x => key x / 2 ^ b % 2 ^ min num_multi_bits (num_bits - b))
          (2 ^ min num_multi_bits (num_bits - b)) l)
    else l
termination_by b _ => num_bits - b
decreasing_by omega

/-- Modelled from the spec: `generate_permutation_opt` followed by `apply_sort_permutation`
at plaintext row level — the rows reordered by the composed radix permutation over the
`num_bits`-bit sort keys, processed in blocks of `num_multi_bits` starting at the least
significant block. -/
def generate_permutation_opt (key : α → Nat) (num_bits num_multi_bits : Nat)
    (l : List α) : List α :=
  radix_sort_pass key num_bits num_multi_bits 0 l

/-- Invariant of the radix loop: starting from a list stably bucket-sorted by the bits below
`b`, the remaining passes produce the stable bucket sort by all `num_bits` bits. -/
theorem radix_sort_pass_eq (key : α → Nat) (num_bits m : Nat) (hm : 0 < m) :
    ∀ (fuel b : Nat) (l : List α), num_bits - b ≤ fuel →
      (∀ x ∈ l, key x < 2 ^ num_bits) →
      radix_sort_pass key num_bits m b (stableSortBy (fun x => key x % 2 ^ b) (2 ^ b) l) =
        stableSortBy (fun x => key x % 2 ^ num_bits) (2 ^ num_bits) l := by
  have hdone : ∀ (b : Nat) (l : List α), num_bits ≤ b → (∀ x ∈ l, key x < 2 ^ num_bits) →
      stableSortBy (fun x => key x % 2 ^ b) (2 ^ b) l =
        stableSortBy (fun x => key x % 2 ^ num_bits) (2 ^ num_bits) l := by
    intro b l hble hb
    have hpow : (2 : Nat) ^ num_bits ≤ 2 ^ b := Nat.pow_le_pow_right (by omega) hble
    rw [stableSortBy_congr (fun x => key x % 2 ^ b) key _ l
        (fun x hx => Nat.mod_eq_of_lt (lt_of_lt_of_le (hb x hx) hpow)),
      stableSortBy_congr (fun x => key x % 2 ^ num_bits) key _ l
        (fun x hx => Nat.mod_eq_of_lt (hb x hx)),
      stableSortBy_bound_le key (2 ^ num_bits) (2 ^ b) l hpow hb]
  intro fuel
  induction fuel with
  | zero =>
    intro b l hfuel hb
    rw [radix_sort_pass, dif_neg (by omega)]
    exact hdone b l (by omega) hb
  | succ n ih =>
    intro b l hfuel hb
    by_cases hlt : b < num_bits
    · rw [radix_sort_pass, dif_pos ⟨hm, hlt⟩]
      have hstep : stableSortBy
          (fun x => key x / 2 ^ b % 2 ^ min m (num_bits - b)) (2 ^ min m (num_bits - b))
          (stableSortBy (fun x => key x % 2 ^ b) (2 ^ b) l) =
          stableSortBy (fun x => key x % 2 ^ (b + min m (num_bits - b)))
            (2 ^ (b + min m (num_bits - b))) l := by
        rw [stableSortBy_compose (fun x => key x % 2 ^ b)
            (fun x => key x / 2 ^ b % 2 ^ min m (num_bits - b)) (2 ^ b)
            (2 ^ min m (num_bits - b)) l
            (fun x _ => Nat.mod_lt _ (pow_pos (by omega) b)),
          show (2 : Nat) ^ min m (num_bits - b) * 2 ^ b = 2 ^ (b + min m (num_bits - b)) by
            rw [pow_add]; ring]
        exact stableSortBy_congr _ _ _ _ fun x _ => blockVal_combine key b _ x
      rw [hstep]
      by_cases hbm : b + m ≤ num_bits
      · rw [show b + min m (num_bits - b) = b + m by omega]
        exact ih (b + m) l (by omega) hb
      · rw [show b + min m (num_bits - b) = num_bits by omega, radix_sort_pass,
          dif_neg (by omega)]
    · rw [radix_sort_pass, dif_neg (by omega)]
      exact hdone b l (by omega) hb

/-- The radix driver equals the stable bucket sort by the whole match key. -/
theorem generate_permutation_opt_eq (key : α → Nat) (num_bits num_multi_bits : Nat)
    (hm : 0 < num_multi_bits) (l : List α) (hb : ∀ x ∈ l, key x < 2 ^ num_bits) :
    generate_permutation_opt key num_bits num_multi_bits l =
      stableSortBy key (2 ^ num_bits) l := by
  rw [generate_permutation_opt, show l = stableSortBy (fun x => key x % 2 ^ 0) (2 ^ 0) l
      from (stableSortBy_mod_one key l).symm]
  nth_rewrite 2 [show stableSortBy (fun x => key x % 2 ^ 0) (2 ^ 0) l = l
    from stableSortBy_mod_one key l]
  rw [radix_sort_pass_eq key num_bits num_multi_bits hm (num_bits - 0) 0 l (by omega) hb]
  exact stableSortBy_congr _ _ _ _ fun x hx => Nat.mod_eq_of_lt (hb x hx)

/-- Rows of the sort: `(original record id, match key)` pairs, record ids in input order. -/
def apply_sort_permutation (num_bits num_multi_bits : Nat) (keys : List Nat) :
    List (Nat × Nat) :=
  generate_permutation_opt Prod.snd num_bits num_multi_bits keys.enum

/-- The enumerated input carries strictly increasing record ids. -/
theorem enum_pairwise_fst (keys : List Nat) :
    keys.enum.Pairwise fun p q => p.1 < q.1 := by
  rw [List.pairwise_iff_getElem]
  intro i j hi hj hij
  simp only [List.getElem_enum]
  exact hij

/-- C8: the permutation produced by the radix-sort driver, applied to the rows, sorts them
by match key stably: the output is a permutation of the input rows, its match keys are
ascending, and for every match key `k` the rows carrying `k` appear exactly as in the input
— in particular with the lower original record id first. Hypotheses: a positive block width
and match keys within `num_bits` bits. -/
theorem radix_sort_stable (keys : List Nat) (num_bits num_multi_bits k : Nat)
    (hm : 0 < num_multi_bits) (hk : ∀ x ∈ keys, x < 2 ^ num_bits) :
    (apply_sort_permutation num_bits num_multi_bits keys).Perm keys.enum ∧
    (apply_sort_permutation num_bits num_multi_bits keys).Pairwise
      (fun p q => p.2 ≤ q.2) ∧
    (apply_sort_permutation num_bits num_multi_bits keys).filter
      (fun p => p.2 == k) = keys.enum.filter (fun p => p.2 == k) ∧
    ((apply_sort_permutation num_bits num_multi_bits keys).filter
      fun p => p.2 == k).Pairwise fun p q => p.1 < q.1 := by
  have hb : ∀ p ∈ keys.enum, p.2 < 2 ^ num_bits := by
    intro p hp
    rw [List.enum_eq_zip_range] at hp
    exact hk p.2 (List.of_mem_zip hp).2
  have heq := generate_permutation_opt_eq Prod.snd num_bits num_multi_bits hm keys.enum hb
  refine ⟨?_, ?_, ?_, ?_⟩
  · rw [apply_sort_permutation, heq]
    exact stableSortBy_perm _ _ _ hb
  · rw [apply_sort_permutation, heq]
    exact stableSortBy_pairwise _ _ _
  · rw [apply_sort_permutation, heq]
    exact stableSortBy_filter _ _ _ _ hb
  · rw [apply_sort_permutation, heq, stableSortBy_filter _ _ _ _ hb]
    exact List.Pairwise.sublist (List.filter_sublist keys.enum) (enum_pairwise_fst keys)

/-- Match keys for the stability witness: two ties (key 5 and key 1). -/
def c8Keys : List Nat := [5, 1, 5, 0, 1]

/-- Evaluation witness for `radix_sort_stable`: five 3-bit keys sorted in blocks of 3 bits,
checked at the tied match key 5. -/
theorem radix_sort_stable_witness :
    (apply_sort_permutation 3 3 c8Keys).Perm c8Keys.enum ∧
    (apply_sort_permutation 3 3 c8Keys).Pairwise (fun p q => p.2 ≤ q.2) ∧
    (apply_sort_permutation 3 3 c8Keys).filter (fun p => p.2 == 5) =
      c8Keys.enum.filter (fun p => p.2 == 5) ∧
    ((apply_sort_permutation 3 3 c8Keys).filter fun p => p.2 == 5).Pairwise
      fun p q => p.1 < q.1 :=
  radix_sort_stable c8Keys 3 3 5 (by decide) (by decide)

end RadixSort

end IPA
